import Mathlib

/-!
Shallow embedding of the rs-gen character-level Markov engine core
(`rs-gen-core/src/model/state.rs`, `ngram_model.rs`, `multigram_model.rs`,
`prediction_input.rs`, `generator.rs`), with theorems checking its
natural-language specification.

Modelling conventions:
* Rust `HashMap`s / `HashSet`s are modelled as association lists / lists;
  observable contents are read off through `keyedSum` (total count per key)
  and list membership, both insensitive to entry order, since HashMap
  iteration order is unspecified.
* Rust `f32` values are modelled as exact rationals (`ℚ`).
* Random draws are passed in explicitly as oracle arguments.
-/

namespace RsGen

/-- Models the fragment of Rust `char::to_lowercase` (full Unicode lowercase,
possibly multi-character) needed here: ASCII uppercase letters map to the
corresponding ASCII lowercase letter; U+0130 (LATIN CAPITAL LETTER I WITH DOT
ABOVE) expands to `i` followed by U+0307 (COMBINING DOT ABOVE) per Unicode
`SpecialCasing.txt`; other characters used in this development lowercase to
themselves. -/
def charToLower (c : Char) : List Char :=
  if c = Char.ofNat 0x130 then [Char.ofNat 0x69, Char.ofNat 0x307]
  else if 'A' ≤ c ∧ c ≤ 'Z' then [Char.ofNat (c.toNat + 32)]
  else [c]

/-- Models Rust `char::to_ascii_lowercase`. -/
def asciiLowerChar (c : Char) : Char :=
  if 'A' ≤ c ∧ c ≤ 'Z' then Char.ofNat (c.toNat + 32) else c

/-- Models Rust `str::to_ascii_lowercase`. -/
def asciiLower (s : String) : String := String.mk (s.data.map asciiLowerChar)

/-- Lowercases a list of characters through `charToLower`, concatenating the
(possibly multi-character) results; models `.flat_map(|c| c.to_lowercase())`. -/
def lowerChars (l : List Char) : List Char :=
  (l.map charToLower).foldr (· ++ ·) []

section AListDefs

variable {α β : Type} [DecidableEq α]

/-- Total, order-insensitive observable of an association list: the sum of
`f` over every value stored under key `a`.  For key-unique lists this is the
value under `a` (or `0` when absent). -/
def keyedSum (f : β → Nat) (l : List (α × β)) (a : α) : Nat :=
  (l.map (fun e => if e.1 = a then f e.2 else 0)).sum

/-- Models the Rust `HashMap` `entry(a).or_insert_with(|| mk a)` pattern
followed by an update `upd` of the entry: updates the entry under `a` with
`upd`, inserting `upd (mk a)` when the key is absent. -/
def bumpAList (mk : α → β) (upd : β → β) : List (α × β) → α → List (α × β)
  | [], a => [(a, upd (mk a))]
  | e :: rest, a =>
    if e.1 = a then (e.1, upd e.2) :: rest else e :: bumpAList mk upd rest a

/-- Models merging one entry `(a, b)` of the other map into `l`: if `a` is
present, combine the stored value with `b` via the fallible `mrg`; otherwise
insert a copy of `b`. -/
def mergeAList (mrg : β → β → Except String β) :
    List (α × β) → α → β → Except String (List (α × β))
  | [], a, b => .ok [(a, b)]
  | e :: rest, a, b =>
    if e.1 = a then
      match mrg e.2 b with
      | .ok m => .ok ((e.1, m) :: rest)
      | .error msg => .error msg
    else
      match mergeAList mrg rest a b with
      | .ok rest' => .ok (e :: rest')
      | .error msg => .error msg

/-- Models the Rust merge loop `for (k, v) in &other { ... }`: folds every
entry of `other` into `l` via `mergeAList`. -/
def foldMerge (mrg : β → β → Except String β) :
    List (α × β) → List (α × β) → Except String (List (α × β))
  | l, [] => .ok l
  | l, e :: rest =>
    match mergeAList mrg l e.1 e.2 with
    | .ok l' => foldMerge mrg l' rest
    | .error msg => .error msg

/-- Models `HashMap::get` / `contains_key` on an association list. -/
def lookupAList (l : List (α × β)) (a : α) : Option β :=
  (l.find? (fun e => decide (e.1 = a))).map (·.2)

end AListDefs

/-! ### `State` (TransitionTable), from `state.rs` -/

/-- A state in an n-gram model: the (n-1)-character prefix `key` and the
observed transition counts per next character (`state.rs`). -/
structure State where
  key : String
  transitions : List (Char × Nat)
deriving DecidableEq

/-- `State::new`: a fresh empty state for the given prefix. -/
def State.new (key : String) : State := ⟨key, []⟩

/-- `State::add_transition`: `*self.transitions.entry(next_char).or_insert(0) += 1`. -/
def State.add_transition (st : State) (next_char : Char) : State :=
  ⟨st.key, bumpAList (fun _ => 0) (· + 1) st.transitions next_char⟩

/-- Observable transition count stored under character `c` (absent ↦ 0). -/
def transCount (l : List (Char × Nat)) (c : Char) : Nat := keyedSum id l c

/-- The cumulative-weight walk of `State::predict` with the uniform draw `r`
passed explicitly; `fb` is the running defensive fallback (the last visited
character), returned when the walk falls off the end of the list. -/
def walkTransitions : List (Char × Nat) → Nat → Option Char → Option Char
  | [], _, fb => fb
  | (c, k) :: rest, r, _ =>
    if r < k then some c else walkTransitions rest (r - k) (some c)

/-- Total occurrence count of a state (`State::predict`'s `total`). -/
def State.totalCount (st : State) : Nat := (st.transitions.map (·.2)).sum

/-- `State::predict`, with the uniform draw `r` (drawn by the source in
`[0, total)`) passed explicitly. -/
def State.predictWith (st : State) (r : Nat) : Option Char :=
  if st.transitions.isEmpty then none
  else if st.totalCount = 0 then none
  else walkTransitions st.transitions r none

/-- The loop in `State::merge`: adds every transition count of `y` into `x`
via `entry(next_char).or_insert(0) += occurrence`. -/
def mergeTransFold (x y : List (Char × Nat)) : List (Char × Nat) :=
  y.foldl (fun acc e => bumpAList (fun _ => 0) (· + e.2) acc e.1) x

/-- `State::merge`: fails on key mismatch, else sums counts entry-wise. -/
def State.merge (x y : State) : Except String State :=
  if x.key ≠ y.key then .error "Key mismatch"
  else .ok ⟨x.key, mergeTransFold x.transitions y.transitions⟩

/-! ### `NGramModel` (OrderModel), from `ngram_model.rs` -/

/-- An n-gram model of fixed order `n`, mapping each (n-1)-character prefix
to its `State` (`ngram_model.rs`). -/
structure NGramModel where
  n : Nat
  states : List (String × State)
deriving DecidableEq

/-- `NGramModel::new`: errors when `n < 2`. -/
def NGramModel.new (n : Nat) : Except String NGramModel :=
  if n < 2 then .error "n must be >= 2" else .ok ⟨n, []⟩

/-- The prefix string of the i-th n-gram window of `chars`: the `n-1`
characters starting at `i`, lowercased via `flat_map char::to_lowercase`. -/
def prefixStrAt (chars : List Char) (n i : Nat) : String :=
  String.mk (lowerChars ((chars.drop i).take (n - 1)))

/-- The lowercased next character of the i-th n-gram window
(`chars[i + n - 1].to_lowercase().next().unwrap()`; `char::to_lowercase` is
never empty, and the index is in bounds whenever the sentence is long enough,
so the defaults are unreachable). -/
def nextCharAt (chars : List Char) (n i : Nat) : Char :=
  (charToLower (chars.getD (i + n - 1) ' ')).headD ' '

/-- `NGramModel::add_sentence`: for each window `i` in `0 ..= len - n`,
record the transition from the lowercased (n-1)-prefix to the lowercased
next character; sentences shorter than `n` are ignored. -/
def NGramModel.add_sentence (m : NGramModel) (sentence : String) : NGramModel :=
  let chars := sentence.data
  if chars.length < m.n then m
  else
    { m with
      states := (List.range (chars.length - m.n + 1)).foldl
        (fun acc i =>
          bumpAList State.new
            (fun st => st.add_transition (nextCharAt chars m.n i)) acc
            (prefixStrAt chars m.n i)) m.states }

/-- `NGramModel::merge`: fails on order mismatch, else merges per-prefix
states, inserting copies of states missing from `self`. -/
def NGramModel.merge (m other : NGramModel) : Except String NGramModel :=
  if m.n ≠ other.n then .error "N mismatch"
  else
    match foldMerge State.merge m.states other.states with
    | .ok sts => .ok ⟨m.n, sts⟩
    | .error msg => .error msg

/-! ### `MultiGramModel` (CorpusModel), from `multigram_model.rs` -/

/-- The top-level corpus model: per-order n-gram models, the sentinel
characters, the deduplication set of raw sentences, and the model-name
bookkeeping (`multigram_model.rs`). -/
structure MultiGramModel where
  start_char : Char
  end_char : Char
  ngrams : List (Nat × NGramModel)
  sentences : List String
  model_names : List String
deriving DecidableEq

/-- `MultiGramModel::default`: empty model with sentinels `<` and `>`. -/
def MultiGramModel.default : MultiGramModel := ⟨'<', '>', [], [], []⟩

/-- The sentinel wrapping of `MultiGramModel::add_sentence`: prepend the
start sentinel and append the end sentinel when not already present. -/
def wrapSentence (sc ec : Char) (s : String) : String :=
  let s1 := if s.data.head? = some sc then s else String.mk (sc :: s.data)
  if s1.data.getLast? = some ec then s1 else String.mk (s1.data ++ [ec])

/-- `MultiGramModel::add_sentence`: skip exact duplicates, wrap with the
sentinels, then feed the wrapped sentence to every order from 2 up to its
character count, lazily creating missing orders (the source's
`NGramModel::new(n).unwrap()` is safe since every such `n ≥ 2`, hence the
direct construction here). -/
def MultiGramModel.add_sentence (m : MultiGramModel) (sentence : String) : MultiGramModel :=
  if sentence ∈ m.sentences then m
  else
    let s := wrapSentence m.start_char m.end_char sentence
    { m with
      sentences := sentence :: m.sentences,
      ngrams := (List.range' 2 (s.data.length - 1)).foldl
        (fun acc k =>
          bumpAList (fun k' => NGramModel.mk k' [])
            (fun g => g.add_sentence s) acc k) m.ngrams }

/-- `MultiGramModel::merge`: fails on sentinel mismatch, else merges every
order's model (copy-insert if missing), unions the sentence sets, and
appends the model names. -/
def MultiGramModel.merge (m other : MultiGramModel) : Except String MultiGramModel :=
  if m.start_char ≠ other.start_char ∨ m.end_char ≠ other.end_char then
    .error "Start/end char mismatch"
  else
    match foldMerge NGramModel.merge m.ngrams other.ngrams with
    | .ok ng =>
      .ok { m with
        ngrams := ng,
        sentences := m.sentences ++ other.sentences.filter (fun s => decide (s ∉ m.sentences)),
        model_names := m.model_names ++ other.model_names }
    | .error msg => .error msg

/-- Modelled from the spec: `MultiGramModel::check_if_exists` is called by
`Generator::predict` but its definition is not among the provided sources;
spec §4.3 describes it as a case-insensitive membership test of the word
against `seen_sentences`. -/
def MultiGramModel.check_if_exists (m : MultiGramModel) (word : String) : Bool :=
  m.sentences.any (fun v => decide (asciiLower v = asciiLower word))

/-- Observable per-prefix/per-character transition count of a states map. -/
def stateCount (l : List (String × State)) (p : String) (c : Char) : Nat :=
  keyedSum (fun st => transCount st.transitions c) l p

/-- Observable per-order/per-prefix/per-character transition count of a
corpus model. -/
def MultiGramModel.count (m : MultiGramModel) (n : Nat) (p : String) (c : Char) : Nat :=
  keyedSum (fun g => stateCount g.states p c) m.ngrams n

/-- The number of windows of the (already wrapped) sentence `s` that an
order-`n` model records with prefix `p` and next character `c`. -/
def ngramContrib (n : Nat) (s : String) (p : String) (c : Char) : Nat :=
  if s.data.length < n then 0
  else
    ((List.range (s.data.length - n + 1)).map
      (fun i => if p = prefixStrAt s.data n i ∧ c = nextCharAt s.data n i then 1 else 0)).sum

/-- The total transition-count contribution of one raw sentence to the
order-`n` slot of a corpus model with sentinels `sc`/`ec`. -/
def sentenceContrib (sc ec : Char) (s : String) (n : Nat) (p : String) (c : Char) : Nat :=
  if 2 ≤ n ∧ n ≤ (wrapSentence sc ec s).data.length then
    ngramContrib n (wrapSentence sc ec s) p c
  else 0

/-- A corpus model built by ingesting the sentences of `l` in order into a
fresh `MultiGramModel::default()`. -/
def buildModel (l : List String) : MultiGramModel :=
  l.foldl MultiGramModel.add_sentence MultiGramModel.default

/-- Well-formedness of a states-map entry: the stored `State`'s `key` field
matches its map key. -/
def StateWF (p : String) (st : State) : Prop := st.key = p

/-- Well-formedness of an ngrams-map entry: the stored model's order matches
its map key, and its states map is well-formed. -/
def NGramWF (k : Nat) (g : NGramModel) : Prop :=
  g.n = k ∧ ∀ e ∈ g.states, StateWF e.1 e.2

/-- Well-formedness of a corpus model's ngrams map. -/
def MultiWF (m : MultiGramModel) : Prop := ∀ e ∈ m.ngrams, NGramWF e.1 e.2

/-- `m` realizes exactly the sentence set `S`: default sentinels, well-formed,
its sentence list has the members of `S`, and every transition count is the
sum of the per-sentence contributions over `S`. -/
def Represents (m : MultiGramModel) (S : Finset String) : Prop :=
  m.start_char = '<' ∧ m.end_char = '>' ∧ MultiWF m ∧
  (∀ s, s ∈ m.sentences ↔ s ∈ S) ∧
  (∀ n p c, m.count n p c = S.sum (fun s => sentenceContrib '<' '>' s n p c))

/-- Equality of the observable content of two corpus models: identical
per-order transition counts and identical seen-sentence sets. -/
def sameObservables (x y : MultiGramModel) : Prop :=
  (∀ n p c, x.count n p c = y.count n p c) ∧
  (∀ s, s ∈ x.sentences ↔ s ∈ y.sentences)

/-! ### `PredictionInput` (PredictionConfig), from `prediction_input.rs` -/

/-- `StartSeed` (`prediction_input.rs`); `NoSeed` models the source's
`StartSeed::False` variant. -/
inductive StartSeed where
  | Random (n : Nat)
  | Custom (s : String)
  | NoSeed
deriving DecidableEq

/-- `PredictionInput`: generation parameters plus the per-model intensity
map and its derived normalized probability map. -/
structure PredictionInput where
  max_n : Nat
  nb_try : Nat
  randomness : ℚ
  reduce_random : Bool
  start_seed : StartSeed
  models_intensity : List (String × ℚ)
  models_probability : List (String × ℚ)

/-- The body of `PredictionInput::normalize`: proportional to intensities
when their sum is positive, else uniform over the configured models, else
empty. -/
def normalizeProb (mi : List (String × ℚ)) : List (String × ℚ) :=
  let s : ℚ := (mi.map (·.2)).sum
  if 0 < s then mi.map (fun e => (e.1, e.2 / s))
  else if 0 < mi.length then mi.map (fun e => (e.1, 1 / (mi.length : ℚ)))
  else []

/-- `PredictionInput::normalize`: recomputes `models_probability` from
`models_intensity`. -/
def PredictionInput.normalize (p : PredictionInput) : PredictionInput :=
  { p with models_probability := normalizeProb p.models_intensity }

/-- `PredictionInput::new`: zero-initialized parameters and normalized
probabilities. -/
def PredictionInput.new (mi : List (String × ℚ)) : PredictionInput :=
  PredictionInput.normalize ⟨0, 0, 0, false, StartSeed.NoSeed, mi, []⟩

/-- `PredictionInput::set_randomness`, returning the error (if any) together
with the updated (or untouched) configuration, mirroring `&mut self`. -/
def PredictionInput.set_randomness (p : PredictionInput) (randomness : ℚ) :
    Option String × PredictionInput :=
  if ¬ (0 ≤ randomness ∧ randomness ≤ 1) then
    (some "Randomness must be between 0.0 and 1.0", p)
  else (none, { p with randomness := randomness })

/-- `PredictionInput::set_model_intensity`: rejects unknown model names,
else overwrites the intensity and renormalizes. -/
def PredictionInput.set_model_intensity (p : PredictionInput) (model : String) (intensity : ℚ) :
    Option String × PredictionInput :=
  if ¬ p.models_intensity.any (fun e => decide (e.1 = model)) then
    (some ("Model " ++ model ++ " not found"), p)
  else
    (none, PredictionInput.normalize
      { p with
        models_intensity :=
          p.models_intensity.map (fun e => if e.1 = model then (e.1, intensity) else e) })

/-- The normalization invariant claimed for `models_probability`: with
non-negative intensities of positive sum every probability is
`intensity / sum`; with all-zero intensities over a non-empty map every
probability is `1 / count`. -/
def normalizedInvariant (p : PredictionInput) : Prop :=
  ((∀ e ∈ p.models_intensity, 0 ≤ e.2) →
    0 < ((p.models_intensity.map (·.2)).sum : ℚ) →
    ∀ e ∈ p.models_intensity,
      (e.1, e.2 / (p.models_intensity.map (·.2)).sum) ∈ p.models_probability) ∧
  ((∀ e ∈ p.models_intensity, e.2 = 0) → p.models_intensity ≠ [] →
    ∀ e ∈ p.models_intensity,
      (e.1, 1 / (p.models_intensity.length : ℚ)) ∈ p.models_probability)

/-! ### `Generator` (Blender), from `generator.rs` -/

/-- The high-level generator: loaded models by name. -/
structure Generator where
  models : List (String × MultiGramModel)

/-- Descending insertion by score; stands in for the source's
`sort_by(|a, b| b.1.total_cmp(&a.1))`. -/
def insertScoredDesc (e : String × ℚ) : List (String × ℚ) → List (String × ℚ)
  | [] => [e]
  | x :: xs => if x.2 ≤ e.2 then e :: x :: xs else x :: insertScoredDesc e xs

/-- Descending sort by score. -/
def sortScoredDesc (l : List (String × ℚ)) : List (String × ℚ) :=
  l.foldr insertScoredDesc []

/-- `Generator::get_random_models`: keep the configured models that have
positive probability and are loaded, attach each one's random sort key
(`u ^ (1 / weight)` in the source, abstracted here as the oracle `score`
indexed by the candidate's position), and sort descending by key. -/
def Generator.get_random_models (g : Generator) (p : PredictionInput) (score : Nat → ℚ) :
    List String :=
  let scored := p.models_probability.enum.filterMap (fun ie =>
    if 0 < ie.2.2 ∧ (lookupAList g.models ie.2.1).isSome then
      some (ie.2.1, score ie.1)
    else none)
  (sortScoredDesc scored).map (·.1)

/-- Outcome of the model-selection prefix of `Generator::internal_predict`:
an explicit error, a successfully selected first model (after which the
generation loop proper starts), or a Rust panic. -/
inductive PredictOutcome where
  | ok (selected : String)
  | err (msg : String)
  | aborted
deriving DecidableEq

/-- Models `Generator::internal_predict` (`generator.rs` lines 138–152) up to
and including the first model selection: the empty-model check, the weighted
ordering draw, and the `self.models.get_mut(&models[0])` lookup.  `aborted`
models the Rust index-out-of-bounds panic of `models[0]` on an empty vector;
`ok name` abstracts the rest of the generation loop, entered only once a
first model has been found. -/
def Generator.internal_predict_select (g : Generator) (p : PredictionInput)
    (score : Nat → ℚ) : PredictOutcome :=
  if g.models.isEmpty then .err "No models available for prediction"
  else
    match (g.get_random_models p score).head? with
    | none => .aborted
    | some name =>
      match lookupAList g.models name with
      | some _ => .ok name
      | none => .err "No model available for prediction"

/-- The deterministic part of `Generator::compute_n`: the target order before
the randomness override, `min(max_n, prefix_len + 1)` with `max_n = 0`
meaning "no bound". -/
def Generator.base_n (prefix_size max_n : Nat) : Nat :=
  if max_n = 0 then prefix_size + 1 else min max_n (prefix_size + 1)

/-- `Generator::compute_randomness` with the two random draws passed as
oracles: `fires` models `random_range(0.0..=1.0) <= randomness`, and `draw`
feeds the uniform choice from `2..=max(mx, 2)` (which has `max mx 2 - 1`
values, hence the modulus). -/
def Generator.compute_randomness (randomness : ℚ) (fires : Bool) (draw : Nat)
    (mx dflt : Nat) : Except String Nat :=
  if randomness < 0 ∨ 1 < randomness then
    .error "randomness must be between 0.0 and 1.0"
  else if 0 < randomness ∧ fires = true then
    .ok (2 + draw % (Nat.max mx 2 - 1))
  else .ok dflt

/-- `Generator::compute_n`: the base order possibly overridden by
`compute_randomness`, which the source calls with `max_n` (not `n`) as the
upper bound of the random range. -/
def Generator.compute_n (prefix_size max_n : Nat) (randomness : ℚ) (fires : Bool)
    (draw : Nat) : Except String Nat :=
  Generator.compute_randomness randomness fires draw max_n
    (Generator.base_n prefix_size max_n)

/-- The common duplicate-avoidance retry loop of `MultiGramModel::predict`
and `Generator::predict`, with the sequence of generated attempts passed as
the oracle `attempts` (attempt 0 is the initial `internal_predict` result).
Fuel 0 corresponds to the loop exiting on `nb_try <= 0`; a non-duplicate
word exits immediately; a duplicate consumes one unit of budget and
regenerates. -/
def retryLoop (isDup : String → Bool) (attempts : Nat → String) :
    Nat → String → Nat → String
  | 0, word, _ => word
  | nb_try + 1, word, idx =>
    if isDup word then retryLoop isDup attempts nb_try (attempts idx) (idx + 1)
    else word

/-- The duplicate check of `MultiGramModel::predict`: some known sentence
matches the word up to `to_ascii_lowercase`. -/
def MultiGramModel.isDuplicate (m : MultiGramModel) (word : String) : Bool :=
  m.sentences.any (fun v => decide (asciiLower v = asciiLower word))

/-- `MultiGramModel::predict`: the retry wrapper around `internal_predict`
(abstracted as the `attempts` oracle) with budget `nb_try`. -/
def MultiGramModel.predict (m : MultiGramModel) (attempts : Nat → String) (nb_try : Nat) :
    String :=
  retryLoop m.isDuplicate attempts nb_try (attempts 0) 1

/-- The duplicate check of `Generator::predict`: some loaded model reports
the word as existing. -/
def Generator.isDuplicate (g : Generator) (word : String) : Bool :=
  g.models.any (fun e => e.2.check_if_exists word)

/-- `Generator::predict`: the retry wrapper around `internal_predict`
(abstracted as the `attempts` oracle) with budget `prediction_input.nb_try`. -/
def Generator.predict (g : Generator) (attempts : Nat → String) (nb_try : Nat) : String :=
  retryLoop g.isDuplicate attempts nb_try (attempts 0) 1

/-! ## Theorems -/

section AListLemmas

variable {α β : Type} [DecidableEq α]

theorem keyedSum_nil (f : β → Nat) (a : α) : keyedSum f ([] : List (α × β)) a = 0 := rfl

theorem keyedSum_cons (f : β → Nat) (e : α × β) (l : List (α × β)) (a : α) :
    keyedSum f (e :: l) a = (if e.1 = a then f e.2 else 0) + keyedSum f l a := rfl

/-- Effect of `bumpAList` on `keyedSum`, under a per-key invariant `K` strong
enough to determine the increment `δ` produced by `upd` at key `a`. -/
theorem keyedSum_bump (f : β → Nat) (mk : α → β) (upd : β → β) (δ : Nat)
    (K : α → β → Prop) (l : List (α × β)) (a : α)
    (hK : ∀ e ∈ l, K e.1 e.2) (hmkK : K a (mk a))
    (hupd : ∀ x, K a x → f (upd x) = f x + δ) (hmk : f (mk a) = 0) (b : α) :
    keyedSum f (bumpAList mk upd l a) b = keyedSum f l b + if b = a then δ else 0 := by
  induction l with
  | nil =>
    show keyedSum f [(a, upd (mk a))] b = keyedSum f [] b + if b = a then δ else 0
    simp only [keyedSum_cons, keyedSum_nil]
    rw [hupd _ hmkK, hmk]
    by_cases hab : a = b
    · subst hab; simp
    · rw [if_neg hab, if_neg (fun h => hab h.symm)]
  | cons e rest ih =>
    have hKe : K e.1 e.2 := hK e (by simp)
    have hKrest : ∀ x ∈ rest, K x.1 x.2 := fun x hx => hK x (by simp [hx])
    by_cases hea : e.1 = a
    · show keyedSum f (if e.1 = a then (e.1, upd e.2) :: rest else
        e :: bumpAList mk upd rest a) b = _
      rw [if_pos hea]
      simp only [keyedSum_cons]
      rw [hupd _ (hea ▸ hKe)]
      by_cases heb : e.1 = b
      · rw [if_pos heb, if_pos heb, if_pos (show b = a from heb ▸ hea)]
        omega
      · rw [if_neg heb, if_neg heb, if_neg (fun h : b = a => heb (hea.trans h.symm))]
        omega
    · show keyedSum f (if e.1 = a then (e.1, upd e.2) :: rest else
        e :: bumpAList mk upd rest a) b = _
      rw [if_neg hea]
      simp only [keyedSum_cons, ih hKrest]
      omega

/-- `bumpAList` preserves a per-key invariant. -/
theorem bumpAList_K (mk : α → β) (upd : β → β) (K : α → β → Prop)
    (l : List (α × β)) (a : α)
    (hK : ∀ e ∈ l, K e.1 e.2) (hmkK : K a (mk a))
    (hupd : ∀ x, K a x → K a (upd x)) :
    ∀ e ∈ bumpAList mk upd l a, K e.1 e.2 := by
  induction l with
  | nil =>
    intro e he
    simp only [bumpAList, List.mem_singleton] at he
    subst he
    exact hupd _ hmkK
  | cons x rest ih =>
    intro e he
    have hKx : K x.1 x.2 := hK x (by simp)
    have hKrest : ∀ y ∈ rest, K y.1 y.2 := fun y hy => hK y (by simp [hy])
    by_cases hxa : x.1 = a
    · simp only [bumpAList, if_pos hxa] at he
      rcases List.mem_cons.1 he with h | h
      · subst h
        show K x.1 (upd x.2)
        rw [hxa]
        exact hupd _ (hxa ▸ hKx)
      · exact hKrest e h
    · simp only [bumpAList, if_neg hxa] at he
      rcases List.mem_cons.1 he with h | h
      · subst h; exact hKx
      · exact ih hKrest e h

/-- Given success, `mergeAList` adds the observable of the merged-in value at
its key, provided `mrg` is additive on success. -/
theorem keyedSum_mergeAList (f : β → Nat) (mrg : β → β → Except String β)
    (hmrg : ∀ x y r, mrg x y = .ok r → f r = f x + f y)
    (l : List (α × β)) (a : α) (b : β) (l' : List (α × β))
    (h : mergeAList mrg l a b = .ok l') (c : α) :
    keyedSum f l' c = keyedSum f l c + if c = a then f b else 0 := by
  induction l generalizing l' with
  | nil =>
    simp only [mergeAList, Except.ok.injEq] at h
    subst h
    simp only [keyedSum_cons, keyedSum_nil]
    by_cases hca : c = a
    · rw [if_pos hca, if_pos hca.symm]
      omega
    · rw [if_neg hca, if_neg (fun h' => hca h'.symm)]
  | cons e rest ih =>
    by_cases hea : e.1 = a
    · simp only [mergeAList, if_pos hea] at h
      cases hm : mrg e.2 b with
      | ok m =>
        rw [hm] at h
        simp only [Except.ok.injEq] at h
        subst h
        simp only [keyedSum_cons, hmrg _ _ _ hm]
        by_cases hec : e.1 = c
        · rw [if_pos hec, if_pos hec, if_pos (show c = a from hec ▸ hea)]
          omega
        · rw [if_neg hec, if_neg hec, if_neg (fun h' : c = a => hec (hea.trans h'.symm))]
          omega
      | error msg => rw [hm] at h; cases h
    · simp only [mergeAList, if_neg hea] at h
      cases hrest : mergeAList mrg rest a b with
      | ok rest' =>
        rw [hrest] at h
        simp only [Except.ok.injEq] at h
        subst h
        simp only [keyedSum_cons, ih rest' hrest]
        by_cases hec : e.1 = c
        all_goals simp [hec]
        all_goals omega
      | error msg => rw [hrest] at h; cases h

/-- Given success, `foldMerge` adds the observables of the two maps. -/
theorem keyedSum_foldMerge (f : β → Nat) (mrg : β → β → Except String β)
    (hmrg : ∀ x y r, mrg x y = .ok r → f r = f x + f y)
    (o : List (α × β)) :
    ∀ (l l' : List (α × β)), foldMerge mrg l o = .ok l' →
    ∀ c, keyedSum f l' c = keyedSum f l c + keyedSum f o c := by
  induction o with
  | nil =>
    intro l l' h c
    simp only [foldMerge, Except.ok.injEq] at h
    subst h
    simp [keyedSum_nil]
  | cons e rest ih =>
    intro l l' h c
    simp only [foldMerge] at h
    cases hm : mergeAList mrg l e.1 e.2 with
    | ok l₁ =>
      rw [hm] at h
      have h1 := keyedSum_mergeAList f mrg hmrg l e.1 e.2 l₁ hm c
      have h2 := ih l₁ l' h c
      rw [h2, h1, keyedSum_cons]
      by_cases hec : e.1 = c
      · rw [if_pos hec, if_pos hec.symm]
        omega
      · rw [if_neg hec, if_neg (fun h' => hec h'.symm)]
        omega
    | error msg => rw [hm] at h; cases h

/-- Under matching per-key invariants, `mergeAList` succeeds and preserves
the invariant. -/
theorem mergeAList_ok (mrg : β → β → Except String β) (K : α → β → Prop)
    (hmrg : ∀ a x y, K a x → K a y → ∃ r, mrg x y = .ok r ∧ K a r)
    (l : List (α × β)) (a : α) (b : β)
    (hK : ∀ e ∈ l, K e.1 e.2) (hKb : K a b) :
    ∃ l', mergeAList mrg l a b = .ok l' ∧ ∀ e ∈ l', K e.1 e.2 := by
  induction l with
  | nil =>
    refine ⟨[(a, b)], rfl, ?_⟩
    intro e he
    simp only [List.mem_singleton] at he
    subst he
    exact hKb
  | cons e rest ih =>
    have hKe : K e.1 e.2 := hK e (by simp)
    have hKrest : ∀ y ∈ rest, K y.1 y.2 := fun y hy => hK y (by simp [hy])
    by_cases hea : e.1 = a
    · obtain ⟨r, hr, hKr⟩ := hmrg a e.2 b (hea ▸ hKe) hKb
      refine ⟨(e.1, r) :: rest, ?_, ?_⟩
      · simp only [mergeAList, if_pos hea, hr]
      · intro x hx
        rcases List.mem_cons.1 hx with h | h
        · subst h; exact hea ▸ hKr
        · exact hKrest x h
    · obtain ⟨rest', hrest, hKrest'⟩ := ih hKrest
      refine ⟨e :: rest', ?_, ?_⟩
      · simp only [mergeAList, if_neg hea, hrest]
      · intro x hx
        rcases List.mem_cons.1 hx with h | h
        · subst h; exact hKe
        · exact hKrest' x h

/-- Under matching per-key invariants, `foldMerge` succeeds and preserves the
invariant. -/
theorem foldMerge_ok (mrg : β → β → Except String β) (K : α → β → Prop)
    (hmrg : ∀ a x y, K a x → K a y → ∃ r, mrg x y = .ok r ∧ K a r)
    (o : List (α × β)) :
    ∀ (l : List (α × β)), (∀ e ∈ l, K e.1 e.2) → (∀ e ∈ o, K e.1 e.2) →
    ∃ l', foldMerge mrg l o = .ok l' ∧ ∀ e ∈ l', K e.1 e.2 := by
  induction o with
  | nil => exact fun l hK _ => ⟨l, rfl, hK⟩
  | cons e rest ih =>
    intro l hKl hKo
    have hKe : K e.1 e.2 := hKo e (by simp)
    have hKrest : ∀ y ∈ rest, K y.1 y.2 := fun y hy => hKo y (by simp [hy])
    obtain ⟨l₁, h₁, hK₁⟩ := mergeAList_ok mrg K hmrg l e.1 e.2 hKl hKe
    obtain ⟨l', h', hK'⟩ := ih l₁ hK₁ hKrest
    exact ⟨l', by simp only [foldMerge, h₁, h'], hK'⟩

end AListLemmas

/-! ### `State` lemmas -/

theorem transCount_add_transition (st : State) (c d : Char) :
    transCount (st.add_transition c).transitions d
      = transCount st.transitions d + if d = c then 1 else 0 :=
  keyedSum_bump id (fun _ => 0) (· + 1) 1 (fun _ _ => True) st.transitions c
    (fun _ _ => trivial) trivial (fun _ _ => rfl) rfl d

theorem transCount_mergeTransFold (y : List (Char × Nat)) :
    ∀ x c, transCount (mergeTransFold x y) c = transCount x c + transCount y c := by
  induction y with
  | nil => intro x c; simp [mergeTransFold, transCount, keyedSum_nil]
  | cons e rest ih =>
    intro x c
    show transCount (mergeTransFold (bumpAList (fun _ => 0) (· + e.2) x e.1) rest) c = _
    rw [ih]
    have hb := keyedSum_bump id (fun _ => 0) (· + e.2) e.2 (fun _ _ => True) x e.1
      (fun _ _ => trivial) trivial (fun _ _ => rfl) rfl c
    show transCount (bumpAList (fun _ => 0) (· + e.2) x e.1) c + transCount rest c = _
    rw [show transCount (bumpAList (fun _ => 0) (· + e.2) x e.1) c
        = transCount x c + if c = e.1 then e.2 else 0 from hb]
    simp only [transCount, keyedSum_cons, id_eq]
    by_cases hce : e.1 = c
    · rw [if_pos (show c = e.1 from hce.symm), if_pos hce]
      omega
    · rw [if_neg (show ¬ c = e.1 from fun h => hce h.symm), if_neg hce]
      omega

theorem State.merge_ok (x y : State) (h : x.key = y.key) :
    State.merge x y = .ok ⟨x.key, mergeTransFold x.transitions y.transitions⟩ := by
  simp [State.merge, h]

theorem State.merge_key (x y r : State) (h : State.merge x y = .ok r) : r.key = x.key := by
  unfold State.merge at h
  by_cases hk : x.key ≠ y.key
  · rw [if_pos hk] at h; cases h
  · rw [if_neg hk] at h
    cases h
    rfl

theorem State.merge_count (x y r : State) (h : State.merge x y = .ok r) (c : Char) :
    transCount r.transitions c = transCount x.transitions c + transCount y.transitions c := by
  unfold State.merge at h
  by_cases hk : x.key ≠ y.key
  · rw [if_pos hk] at h; cases h
  · rw [if_neg hk] at h
    cases h
    exact transCount_mergeTransFold _ _ _

/-! ### The cumulative-weight walk (claim C7 machinery) -/

/-- With all counts at least 1 and a draw inside the total, the walk lands
inside some bucket: it returns that bucket's character for every value of
the running fallback, so the defensive fallback is never consulted. -/
theorem walkTransitions_hits (l : List (Char × Nat)) :
    ∀ r, (∀ e ∈ l, 1 ≤ e.2) → r < (l.map (·.2)).sum →
    ∃ c k, (c, k) ∈ l ∧ ∀ fb, walkTransitions l r fb = some c := by
  induction l with
  | nil =>
    intro r _ hr
    simp at hr
  | cons e rest ih =>
    obtain ⟨c, k⟩ := e
    intro r h1 hr
    by_cases hrk : r < k
    · exact ⟨c, k, by simp, fun fb => by simp [walkTransitions, hrk]⟩
    · have hsum : r - k < (rest.map (·.2)).sum := by
        simp only [List.map_cons, List.sum_cons] at hr
        omega
      obtain ⟨c', k', hmem, hw⟩ :=
        ih (r - k) (fun e he => h1 e (List.mem_cons_of_mem _ he)) hsum
      exact ⟨c', k', List.mem_cons_of_mem _ hmem,
        fun fb => by simpa [walkTransitions, hrk] using hw (some c)⟩

/-- A walk over a non-empty list (or with a present fallback) always yields
some character. -/
theorem walkTransitions_isSome :
    ∀ (l : List (Char × Nat)) (r : Nat) (fb : Option Char),
      l ≠ [] ∨ fb.isSome → (walkTransitions l r fb).isSome
  | [], _, fb, h => by
    cases h with
    | inl h => exact absurd rfl h
    | inr h => simpa [walkTransitions]
  | (c, k) :: rest, r, fb, _ => by
    show ((if r < k then some c else walkTransitions rest (r - k) (some c))).isSome
    by_cases hrk : r < k
    · simp [hrk]
    · rw [if_neg hrk]
      exact walkTransitions_isSome rest (r - k) (some c) (Or.inr rfl)

/-- C7: `State::predict` is total and its defensive fallback is dead code
under the invariants: for a state whose transition counts are all at least 1
(as `add_transition` and `merge` produce), `predict` returns `none` exactly
when the transitions map is empty, and for every draw `r` in
`[0, total_count)` the cumulative-weight walk returns some character that is
a key of the map, independently of the running fallback — so the final
fallback return is never exercised. -/
theorem state_predict_total_fallback_dead (st : State) (r : Nat)
    (hpos : ∀ e ∈ st.transitions, 1 ≤ e.2) :
    (st.predictWith r = none ↔ st.transitions = []) ∧
    (r < st.totalCount →
      ∃ c, (∃ k, (c, k) ∈ st.transitions) ∧
        (∀ fb, walkTransitions st.transitions r fb = some c) ∧
        st.predictWith r = some c) := by
  constructor
  · constructor
    · intro hnone
      by_contra hne
      have htot : 1 ≤ st.totalCount := by
        obtain ⟨e, rest, heq⟩ := List.exists_cons_of_ne_nil hne
        have h1 : 1 ≤ e.2 := hpos e (heq ▸ List.mem_cons_self _ _)
        unfold State.totalCount
        rw [heq]
        simp only [List.map_cons, List.sum_cons]
        omega
      have hsome := walkTransitions_isSome st.transitions r none (Or.inl hne)
      unfold State.predictWith at hnone
      rw [if_neg (by simpa [List.isEmpty_iff] using hne),
          if_neg (by omega)] at hnone
      rw [hnone] at hsome
      cases hsome
    · intro hemp
      unfold State.predictWith
      rw [if_pos (by simpa [List.isEmpty_iff] using hemp)]
  · intro hr
    have hne : st.transitions ≠ [] := by
      intro hemp
      unfold State.totalCount at hr
      rw [hemp] at hr
      simp at hr
    obtain ⟨c, k, hmem, hw⟩ := walkTransitions_hits st.transitions r hpos hr
    refine ⟨c, ⟨k, hmem⟩, hw, ?_⟩
    unfold State.predictWith
    rw [if_neg (by simpa [List.isEmpty_iff] using hne), if_neg (by omega),
        hw none]

/-- Collapsing nested indicators. -/
theorem ite_and_ite (A B : Prop) [Decidable A] [Decidable B] :
    (if A then (if B then (1 : Nat) else 0) else 0) = if A ∧ B then 1 else 0 := by
  by_cases hA : A
  · by_cases hB : B
    · simp [hA, hB]
    · simp [hA, hB]
  · simp [hA]

section FoldBump

variable {α β γ : Type} [DecidableEq α]

/-- A fold of key-indexed `bumpAList` updates preserves a per-key invariant. -/
theorem foldl_bump_K (mk : α → β) (K : α → β → Prop) (upds : γ → β → β)
    (keys : γ → α) (hmkK : ∀ a, K a (mk a))
    (hupd : ∀ g x a, K a x → K a (upds g x)) (L : List γ) :
    ∀ acc, (∀ e ∈ acc, K e.1 e.2) →
    ∀ e ∈ L.foldl (fun acc g => bumpAList mk (upds g) acc (keys g)) acc, K e.1 e.2 := by
  induction L with
  | nil => exact fun acc h => h
  | cons g rest ih =>
    intro acc hacc
    exact ih (bumpAList mk (upds g) acc (keys g))
      (bumpAList_K mk (upds g) K acc (keys g) hacc (hmkK _) (fun x => hupd g x _))

end FoldBump

/-! ### `NGramModel` lemmas -/

/-- `add_sentence` leaves the order unchanged. -/
theorem NGramModel.add_sentence_n (m : NGramModel) (s : String) :
    (m.add_sentence s).n = m.n := by
  unfold NGramModel.add_sentence
  by_cases h : s.data.length < m.n
  · simp only [if_pos h]
  · simp only [if_neg h]

/-- The window fold of `NGramModel::add_sentence` adds, per window, an
indicator of whether the window realizes the prefix/character pair. -/
theorem stateCount_windows_fold (chars : List Char) (n : Nat) (L : List Nat) :
    ∀ acc p c,
      stateCount (L.foldl (fun acc i =>
        bumpAList State.new (fun st => st.add_transition (nextCharAt chars n i)) acc
          (prefixStrAt chars n i)) acc) p c
      = stateCount acc p c
        + (L.map (fun i =>
            if p = prefixStrAt chars n i ∧ c = nextCharAt chars n i then 1 else 0)).sum := by
  induction L with
  | nil => intro acc p c; simp
  | cons i rest ih =>
    intro acc p c
    show stateCount (rest.foldl _
      (bumpAList State.new (fun st => st.add_transition (nextCharAt chars n i)) acc
        (prefixStrAt chars n i))) p c = _
    rw [ih]
    have hb := keyedSum_bump (fun (st : State) => transCount st.transitions c) State.new
      (fun st => st.add_transition (nextCharAt chars n i))
      (if c = nextCharAt chars n i then 1 else 0)
      (fun _ _ => True) acc (prefixStrAt chars n i) (fun _ _ => trivial) trivial
      (fun st _ => transCount_add_transition st (nextCharAt chars n i) c) rfl p
    show stateCount (bumpAList State.new
      (fun st => st.add_transition (nextCharAt chars n i)) acc (prefixStrAt chars n i)) p c
      + _ = _
    rw [show stateCount (bumpAList State.new
        (fun st => st.add_transition (nextCharAt chars n i)) acc (prefixStrAt chars n i)) p c
      = stateCount acc p c + if p = prefixStrAt chars n i then
          (if c = nextCharAt chars n i then 1 else 0) else 0 from hb]
    rw [ite_and_ite, List.map_cons, List.sum_cons]
    omega

/-- `NGramModel::add_sentence` adds exactly the sentence's window
contribution to every observable transition count. -/
theorem stateCount_add_sentence (m : NGramModel) (s : String) (p : String) (c : Char) :
    stateCount (m.add_sentence s).states p c
      = stateCount m.states p c + ngramContrib m.n s p c := by
  unfold NGramModel.add_sentence ngramContrib
  by_cases hlen : s.data.length < m.n
  · rw [if_pos hlen, if_pos hlen]
    omega
  · rw [if_neg hlen, if_neg hlen]
    exact stateCount_windows_fold s.data m.n _ m.states p c

/-- `NGramModel::add_sentence` preserves states-map well-formedness. -/
theorem statesWF_add_sentence (m : NGramModel) (s : String)
    (h : ∀ e ∈ m.states, StateWF e.1 e.2) :
    ∀ e ∈ (m.add_sentence s).states, StateWF e.1 e.2 := by
  unfold NGramModel.add_sentence
  by_cases hlen : s.data.length < m.n
  · rw [if_pos hlen]; exact h
  · rw [if_neg hlen]
    exact foldl_bump_K State.new StateWF
      (fun i st => st.add_transition (nextCharAt s.data m.n i))
      (fun i => prefixStrAt s.data m.n i) (fun _ => rfl)
      (fun _ x a hx => hx) _ m.states h

/-- `NGramModel::merge` succeeds on equal orders over well-formed states and
preserves order and well-formedness. -/
theorem NGramModel.merge_succeeds (m o : NGramModel) (hn : m.n = o.n)
    (hm : ∀ e ∈ m.states, StateWF e.1 e.2) (ho : ∀ e ∈ o.states, StateWF e.1 e.2) :
    ∃ r, NGramModel.merge m o = .ok r ∧ r.n = m.n ∧ ∀ e ∈ r.states, StateWF e.1 e.2 := by
  have hmrg : ∀ (a : String) (x y : State), StateWF a x → StateWF a y →
      ∃ r, State.merge x y = .ok r ∧ StateWF a r := by
    intro a x y hx hy
    exact ⟨⟨x.key, mergeTransFold x.transitions y.transitions⟩,
      State.merge_ok x y (hx.trans hy.symm), hx⟩
  obtain ⟨sts, hsts, hK⟩ := foldMerge_ok State.merge StateWF hmrg o.states m.states hm ho
  refine ⟨⟨m.n, sts⟩, ?_, rfl, hK⟩
  unfold NGramModel.merge
  rw [if_neg (fun h => h hn), hsts]

/-- On success, `NGramModel::merge` keeps the order of the receiver. -/
theorem NGramModel.merge_n (m o r : NGramModel) (h : NGramModel.merge m o = .ok r) :
    r.n = m.n := by
  unfold NGramModel.merge at h
  by_cases hn : m.n ≠ o.n
  · rw [if_pos hn] at h; cases h
  · rw [if_neg hn] at h
    cases hf : foldMerge State.merge m.states o.states with
    | ok sts => rw [hf] at h; cases h; rfl
    | error msg => rw [hf] at h; cases h

/-- On success, `NGramModel::merge` adds observable transition counts. -/
theorem NGramModel.merge_stateCount (m o r : NGramModel) (h : NGramModel.merge m o = .ok r)
    (p : String) (c : Char) :
    stateCount r.states p c = stateCount m.states p c + stateCount o.states p c := by
  unfold NGramModel.merge at h
  by_cases hn : m.n ≠ o.n
  · rw [if_pos hn] at h; cases h
  · rw [if_neg hn] at h
    cases hf : foldMerge State.merge m.states o.states with
    | ok sts =>
      rw [hf] at h
      cases h
      exact keyedSum_foldMerge (fun st => transCount st.transitions c) State.merge
        (fun x y r' h' => State.merge_count x y r' h' c) o.states m.states sts hf p
    | error msg => rw [hf] at h; cases h

/-- C4 (the code violates the claim): the order invariant "every key of the
states map has exactly n-1 characters" fails for Unicode input whose
lowercase expands to several characters.  `add_sentence "İa"` on the fresh
order-2 model produced by `NGramModel::new(2)` creates the single key
`"i" ++ U+0307` of length 2 ≠ n - 1 = 1, because Rust's
`char::to_lowercase` of U+0130 yields two characters. -/
theorem ngram_key_length_violation :
    NGramModel.new 2 = Except.ok (NGramModel.mk 2 []) ∧
    ((NGramModel.mk 2 []).add_sentence "İa").states.map (·.1)
      = [String.mk [Char.ofNat 0x69, Char.ofNat 0x307]] ∧
    ((NGramModel.mk 2 []).add_sentence "İa").states.map (fun e => e.1.length) = [2] ∧
    (2 : Nat) ≠ 2 - 1 :=
  ⟨rfl, by decide, by decide, by decide⟩

/-- Witness for C7 at a concrete reachable state. -/
theorem state_predict_total_fallback_dead_witness :
    ((State.mk "ab" [('x', 2), ('y', 1)]).predictWith 2 = none ↔
      (State.mk "ab" [('x', 2), ('y', 1)]).transitions = []) ∧
    (2 < (State.mk "ab" [('x', 2), ('y', 1)]).totalCount →
      ∃ c, (∃ k, (c, k) ∈ (State.mk "ab" [('x', 2), ('y', 1)]).transitions) ∧
        (∀ fb, walkTransitions (State.mk "ab" [('x', 2), ('y', 1)]).transitions 2 fb = some c) ∧
        (State.mk "ab" [('x', 2), ('y', 1)]).predictWith 2 = some c) :=
  state_predict_total_fallback_dead (State.mk "ab" [('x', 2), ('y', 1)]) 2 (by decide)

/-! ### `MultiGramModel` lemmas -/

/-- A sentence already in the dedup set makes `add_sentence` a no-op. -/
theorem add_sentence_of_mem (m : MultiGramModel) (s : String) (h : s ∈ m.sentences) :
    m.add_sentence s = m := by
  unfold MultiGramModel.add_sentence
  rw [if_pos h]

/-- After `add_sentence s`, the sentence `s` is in the dedup set. -/
theorem mem_add_sentence (m : MultiGramModel) (s : String) :
    s ∈ (m.add_sentence s).sentences := by
  unfold MultiGramModel.add_sentence
  by_cases h : s ∈ m.sentences
  · rw [if_pos h]; exact h
  · rw [if_neg h]; exact List.mem_cons_self _ _

/-- C6: ingestion is idempotent on exact duplicates — re-ingesting a sentence
returns a structurally identical model (hence identical per-order transition
counts and seen-sentence set); the second `add_sentence` call is a no-op
because the first one put the raw sentence into the dedup set. -/
theorem multigram_add_sentence_idempotent (m : MultiGramModel) (s : String) :
    (m.add_sentence s).add_sentence s = m.add_sentence s :=
  add_sentence_of_mem _ _ (mem_add_sentence m s)

theorem add_sentence_start_end (m : MultiGramModel) (s : String) :
    (m.add_sentence s).start_char = m.start_char ∧
    (m.add_sentence s).end_char = m.end_char := by
  unfold MultiGramModel.add_sentence
  by_cases h : s ∈ m.sentences
  · rw [if_pos h]; exact ⟨rfl, rfl⟩
  · rw [if_neg h]; exact ⟨rfl, rfl⟩

theorem add_sentence_sentences (m : MultiGramModel) (s : String) (hnew : s ∉ m.sentences) :
    (m.add_sentence s).sentences = s :: m.sentences := by
  unfold MultiGramModel.add_sentence
  rw [if_neg hnew]

/-- The per-order fold of `MultiGramModel::add_sentence` preserves ngrams
well-formedness and adds, per visited order `k`, that order's window
contribution of the wrapped sentence. -/
theorem ngrams_fold (w : String) (L : List Nat) :
    ∀ acc, (∀ e ∈ acc, NGramWF e.1 e.2) →
      (∀ e ∈ L.foldl (fun acc k =>
          bumpAList (fun k' => NGramModel.mk k' []) (fun g => g.add_sentence w) acc k) acc,
        NGramWF e.1 e.2) ∧
      (∀ q p c, keyedSum (fun (g : NGramModel) => stateCount g.states p c)
          (L.foldl (fun acc k =>
            bumpAList (fun k' => NGramModel.mk k' []) (fun g => g.add_sentence w) acc k) acc) q
        = keyedSum (fun (g : NGramModel) => stateCount g.states p c) acc q
          + (L.map (fun k => if q = k then ngramContrib k w p c else 0)).sum) := by
  induction L with
  | nil =>
    intro acc h
    exact ⟨h, by intro q p c; simp⟩
  | cons k rest ih =>
    intro acc hacc
    have hbK : ∀ e ∈ bumpAList (fun k' => NGramModel.mk k' [])
        (fun g => g.add_sentence w) acc k, NGramWF e.1 e.2 :=
      bumpAList_K _ _ NGramWF acc k hacc ⟨rfl, by simp⟩
        (fun g hg => ⟨(NGramModel.add_sentence_n g w).trans hg.1,
          statesWF_add_sentence g w hg.2⟩)
    obtain ⟨hWF, hcount⟩ := ih _ hbK
    refine ⟨hWF, ?_⟩
    intro q p c
    simp only [List.foldl_cons]
    rw [hcount q p c]
    have hb := keyedSum_bump (fun (g : NGramModel) => stateCount g.states p c)
      (fun k' => NGramModel.mk k' []) (fun g => g.add_sentence w)
      (ngramContrib k w p c) NGramWF acc k hacc ⟨rfl, by simp⟩
      (fun g hg => by
        show stateCount (g.add_sentence w).states p c
          = stateCount g.states p c + ngramContrib k w p c
        rw [stateCount_add_sentence, hg.1]) rfl q
    rw [hb]
    simp only [List.map_cons, List.sum_cons]
    omega

/-- Summing a single-key indicator over a duplicate-free list collapses to a
membership test. -/
theorem sum_ite_mem (L : List Nat) (hnd : L.Nodup) (q : Nat) (h : Nat → Nat) :
    (L.map (fun k => if q = k then h k else 0)).sum = if q ∈ L then h q else 0 := by
  induction L with
  | nil => simp
  | cons a rest ih =>
    obtain ⟨ha, hnd'⟩ := List.nodup_cons.1 hnd
    simp only [List.map_cons, List.sum_cons, ih hnd']
    by_cases hqa : q = a
    · subst hqa
      rw [if_pos rfl, if_pos (List.mem_cons_self _ _), if_neg ha]
      omega
    · rw [if_neg hqa]
      by_cases hmem : q ∈ rest
      · rw [if_pos hmem, if_pos (List.mem_cons_of_mem _ hmem)]
        omega
      · rw [if_neg hmem, if_neg (by simp [List.mem_cons, hqa, hmem])]

/-- Membership in the order range `2 ..= len` visited by `add_sentence`. -/
theorem mem_range_orders (q len : Nat) :
    q ∈ List.range' 2 (len - 1) ↔ 2 ≤ q ∧ q ≤ len := by
  rw [List.mem_range'_1]
  omega

/-- `MultiGramModel::add_sentence` of a fresh sentence adds exactly the
sentence's contribution to every observable transition count. -/
theorem count_add_sentence (m : MultiGramModel) (s : String)
    (hWF : MultiWF m) (hnew : s ∉ m.sentences) (q : Nat) (p : String) (c : Char) :
    (m.add_sentence s).count q p c
      = m.count q p c + sentenceContrib m.start_char m.end_char s q p c := by
  unfold MultiGramModel.add_sentence
  rw [if_neg hnew]
  obtain ⟨_, hcount⟩ := ngrams_fold (wrapSentence m.start_char m.end_char s)
    (List.range' 2 ((wrapSentence m.start_char m.end_char s).data.length - 1)) m.ngrams hWF
  show keyedSum _ _ q = _
  rw [hcount q p c]
  rw [sum_ite_mem _ (List.nodup_range' _ _) q _]
  unfold sentenceContrib
  by_cases hq : 2 ≤ q ∧ q ≤ (wrapSentence m.start_char m.end_char s).data.length
  · rw [if_pos hq, if_pos ((mem_range_orders _ _).2 hq)]
    rfl
  · rw [if_neg hq, if_neg (fun hmem => hq ((mem_range_orders _ _).1 hmem))]
    rfl

/-- `MultiGramModel::add_sentence` preserves ngrams well-formedness. -/
theorem multiWF_add_sentence (m : MultiGramModel) (s : String) (hWF : MultiWF m) :
    MultiWF (m.add_sentence s) := by
  unfold MultiGramModel.add_sentence
  by_cases h : s ∈ m.sentences
  · rw [if_pos h]; exact hWF
  · rw [if_neg h]
    exact (ngrams_fold (wrapSentence m.start_char m.end_char s) _ m.ngrams hWF).1

/-- `Represents` is preserved by ingesting a sentence. -/
theorem represents_add (m : MultiGramModel) (S : Finset String) (s : String)
    (h : Represents m S) : Represents (m.add_sentence s) (insert s S) := by
  obtain ⟨hsc, hec, hWF, hsent, hcnt⟩ := h
  by_cases hmem : s ∈ m.sentences
  · rw [add_sentence_of_mem m s hmem,
      Finset.insert_eq_self.2 ((hsent s).1 hmem)]
    exact ⟨hsc, hec, hWF, hsent, hcnt⟩
  · refine ⟨(add_sentence_start_end m s).1.trans hsc,
      (add_sentence_start_end m s).2.trans hec,
      multiWF_add_sentence m s hWF, ?_, ?_⟩
    · intro t
      rw [add_sentence_sentences m s hmem]
      simp only [List.mem_cons, Finset.mem_insert, hsent t]
    · intro n p c
      rw [count_add_sentence m s hWF hmem n p c, hsc, hec,
        Finset.sum_insert (fun hS => hmem ((hsent s).2 hS)), hcnt n p c]
      omega

/-- The empty model realizes the empty sentence set. -/
theorem represents_default : Represents MultiGramModel.default ∅ := by
  refine ⟨rfl, rfl, ?_, ?_, ?_⟩
  · intro e he; cases he
  · intro s; simp [MultiGramModel.default]
  · intro n p c; simp [MultiGramModel.count, MultiGramModel.default, keyedSum_nil]

/-- Folding ingestion over a sentence list unions the realized set. -/
theorem represents_foldl (l : List String) :
    ∀ m S, Represents m S →
      Represents (l.foldl MultiGramModel.add_sentence m) (S ∪ l.toFinset) := by
  induction l with
  | nil =>
    intro m S h
    simpa using h
  | cons a t ih =>
    intro m S h
    have h' := ih (m.add_sentence a) (insert a S) (represents_add m S a h)
    simp only [List.foldl_cons]
    rw [List.toFinset_cons, Finset.union_insert, ← Finset.insert_union]
    exact h'

/-- `buildModel l` realizes exactly the sentence set of `l`. -/
theorem represents_build (l : List String) : Represents (buildModel l) l.toFinset := by
  have h := represents_foldl l MultiGramModel.default ∅ represents_default
  simpa [buildModel] using h

/-- `MultiGramModel::merge` of two well-formed models realizing disjoint
sentence sets succeeds and realizes the union. -/
theorem represents_merge (m₁ m₂ : MultiGramModel) (S₁ S₂ : Finset String)
    (h₁ : Represents m₁ S₁) (h₂ : Represents m₂ S₂) (hdisj : Disjoint S₁ S₂) :
    ∃ r, MultiGramModel.merge m₁ m₂ = .ok r ∧ Represents r (S₁ ∪ S₂) := by
  obtain ⟨hsc₁, hec₁, hWF₁, hsent₁, hcnt₁⟩ := h₁
  obtain ⟨hsc₂, hec₂, hWF₂, hsent₂, hcnt₂⟩ := h₂
  have hmrg : ∀ (k : Nat) (x y : NGramModel), NGramWF k x → NGramWF k y →
      ∃ r, NGramModel.merge x y = .ok r ∧ NGramWF k r := by
    intro k x y hx hy
    obtain ⟨r, hr, hrn, hrW⟩ := NGramModel.merge_succeeds x y (hx.1.trans hy.1.symm) hx.2 hy.2
    exact ⟨r, hr, hrn.trans hx.1, hrW⟩
  obtain ⟨ng, hng, hngW⟩ := foldMerge_ok NGramModel.merge NGramWF hmrg m₂.ngrams m₁.ngrams hWF₁ hWF₂
  refine ⟨{ m₁ with
      ngrams := ng,
      sentences := m₁.sentences ++ m₂.sentences.filter (fun s => decide (s ∉ m₁.sentences)),
      model_names := m₁.model_names ++ m₂.model_names }, ?_, ?_⟩
  · unfold MultiGramModel.merge
    rw [if_neg (by
      push_neg
      exact ⟨hsc₁.trans hsc₂.symm, hec₁.trans hec₂.symm⟩), hng]
  · refine ⟨hsc₁, hec₁, hngW, ?_, ?_⟩
    · intro t
      simp only [List.mem_append, List.mem_filter, decide_eq_true_eq, Finset.mem_union,
        hsent₁ t, hsent₂ t]
      constructor
      · rintro (h | ⟨h, _⟩)
        · exact Or.inl h
        · exact Or.inr h
      · rintro (h | h)
        · exact Or.inl h
        · by_cases hm1 : t ∈ m₁.sentences
          · exact Or.inl ((hsent₁ t).1 hm1)
          · exact Or.inr ⟨h, by rw [hsent₁ t] at hm1; exact hm1⟩
    · intro n p c
      have hsum := keyedSum_foldMerge (fun (g : NGramModel) => stateCount g.states p c)
        NGramModel.merge (fun x y r' h' => NGramModel.merge_stateCount x y r' h' p c)
        m₂.ngrams m₁.ngrams ng hng n
      show keyedSum _ ng n = _
      rw [hsum]
      show m₁.count n p c + m₂.count n p c = _
      rw [hcnt₁ n p c, hcnt₂ n p c, Finset.sum_union hdisj]

/-- C5: merge is associative and commutative up to observable content — for
corpus models built from pairwise disjoint sentence lists, both merge
associations succeed and agree, observably, with each other and with the
single model built from the concatenation of all three lists. -/
theorem multigram_merge_assoc_comm (a b c : List String)
    (hab : ∀ s ∈ a, s ∉ b) (hac : ∀ s ∈ a, s ∉ c) (hbc : ∀ s ∈ b, s ∉ c) :
    ∃ mAB mL mBC mR,
      MultiGramModel.merge (buildModel a) (buildModel b) = .ok mAB ∧
      MultiGramModel.merge mAB (buildModel c) = .ok mL ∧
      MultiGramModel.merge (buildModel b) (buildModel c) = .ok mBC ∧
      MultiGramModel.merge (buildModel a) mBC = .ok mR ∧
      sameObservables mL mR ∧
      sameObservables mL (buildModel (a ++ b ++ c)) := by
  have dAB : Disjoint a.toFinset b.toFinset := by
    rw [List.disjoint_toFinset_iff_disjoint]; exact hab
  have dAC : Disjoint a.toFinset c.toFinset := by
    rw [List.disjoint_toFinset_iff_disjoint]; exact hac
  have dBC : Disjoint b.toFinset c.toFinset := by
    rw [List.disjoint_toFinset_iff_disjoint]; exact hbc
  obtain ⟨mAB, hmAB, hRAB⟩ := represents_merge _ _ _ _
    (represents_build a) (represents_build b) dAB
  obtain ⟨mL, hmL, hRL⟩ := represents_merge _ _ _ _
    hRAB (represents_build c) (Finset.disjoint_union_left.2 ⟨dAC, dBC⟩)
  obtain ⟨mBC, hmBC, hRBC⟩ := represents_merge _ _ _ _
    (represents_build b) (represents_build c) dBC
  obtain ⟨mR, hmR, hRR⟩ := represents_merge _ _ _ _
    (represents_build a) hRBC (Finset.disjoint_union_right.2 ⟨dAB, dAC⟩)
  have hU := represents_build (a ++ b ++ c)
  have hfin : (a ++ b ++ c).toFinset = a.toFinset ∪ b.toFinset ∪ c.toFinset := by
    simp [List.toFinset_append]
  refine ⟨mAB, mL, mBC, mR, hmAB, hmL, hmBC, hmR, ⟨?_, ?_⟩, ⟨?_, ?_⟩⟩
  · intro n p ch
    rw [hRL.2.2.2.2 n p ch, hRR.2.2.2.2 n p ch, Finset.union_assoc]
  · intro s
    rw [hRL.2.2.2.1 s, hRR.2.2.2.1 s, Finset.union_assoc]
  · intro n p ch
    rw [hRL.2.2.2.2 n p ch, hU.2.2.2.2 n p ch, hfin]
  · intro s
    rw [hRL.2.2.2.1 s, hU.2.2.2.1 s, hfin]

/-- Witness for C5 at concrete disjoint sentence lists. -/
theorem multigram_merge_assoc_comm_witness :
    ∃ mAB mL mBC mR,
      MultiGramModel.merge (buildModel ["ab"]) (buildModel ["cd"]) = .ok mAB ∧
      MultiGramModel.merge mAB (buildModel []) = .ok mL ∧
      MultiGramModel.merge (buildModel ["cd"]) (buildModel []) = .ok mBC ∧
      MultiGramModel.merge (buildModel ["ab"]) mBC = .ok mR ∧
      sameObservables mL mR ∧
      sameObservables mL (buildModel (["ab"] ++ ["cd"] ++ [])) :=
  multigram_merge_assoc_comm ["ab"] ["cd"] [] (by decide) (by decide) (by decide)

/-! ### `PredictionInput` lemmas -/

/-- `normalize` establishes the normalization invariant for any intensity
list. -/
theorem normalizedInvariant_normalize (p : PredictionInput) :
    normalizedInvariant (PredictionInput.normalize p) := by
  constructor
  · intro _ hsum e he
    have hsum' : 0 < ((p.models_intensity.map (·.2)).sum : ℚ) := hsum
    have he' : e ∈ p.models_intensity := he
    show (e.1, e.2 / (p.models_intensity.map (·.2)).sum) ∈ normalizeProb p.models_intensity
    simp only [normalizeProb]
    rw [if_pos hsum']
    exact List.mem_map_of_mem _ he'
  · intro hz hne e he
    have hz' : ∀ e ∈ p.models_intensity, e.2 = (0 : ℚ) := hz
    have hne' : p.models_intensity ≠ [] := hne
    have he' : e ∈ p.models_intensity := he
    show (e.1, 1 / (p.models_intensity.length : ℚ)) ∈ normalizeProb p.models_intensity
    have hsum : ((p.models_intensity.map (·.2)).sum : ℚ) = 0 :=
      List.sum_eq_zero (fun x hx => by
        obtain ⟨y, hy, hxy⟩ := List.mem_map.1 hx
        rw [← hxy]
        exact hz' y hy)
    simp only [normalizeProb]
    rw [if_neg (by rw [hsum]; exact lt_irrefl 0),
        if_pos (List.length_pos.2 hne')]
    exact List.mem_map_of_mem _ he'

/-- C3: `models_probability` is a normalization of `models_intensity` after
construction and after every successful `set_model_intensity` call: with
non-negative intensities of positive sum `S` each probability equals
`intensity / S`, and with all-zero intensities over a non-empty map each
probability equals `1 / count`. -/
theorem prediction_input_normalization (mi : List (String × ℚ)) (p : PredictionInput)
    (model : String) (intensity : ℚ) :
    normalizedInvariant (PredictionInput.new mi) ∧
    ((p.set_model_intensity model intensity).1 = none →
      normalizedInvariant (p.set_model_intensity model intensity).2) := by
  constructor
  · exact normalizedInvariant_normalize _
  · intro h
    unfold PredictionInput.set_model_intensity at h ⊢
    by_cases hc : p.models_intensity.any (fun e => decide (e.1 = model)) = true
    · rw [if_neg (by simp [hc])] at h ⊢
      exact normalizedInvariant_normalize _
    · rw [if_pos (by simpa using hc)] at h
      cases h

/-- Witness for C3 at a concrete configuration. -/
theorem prediction_input_normalization_witness :
    normalizedInvariant (PredictionInput.new [("A", 1), ("B", 3)]) ∧
    normalizedInvariant
      (((PredictionInput.new [("A", 1), ("B", 3)]).set_model_intensity "A" 2).2) :=
  ⟨(prediction_input_normalization [("A", 1), ("B", 3)]
      (PredictionInput.new [("A", 1), ("B", 3)]) "A" 2).1,
   (prediction_input_normalization [("A", 1), ("B", 3)]
      (PredictionInput.new [("A", 1), ("B", 3)]) "A" 2).2 (by decide)⟩

/-- C8: `set_randomness` validates on write — every value outside `[0, 1]`
is rejected with the stored configuration unchanged, and every value inside
`[0, 1]` is accepted and stored exactly. -/
theorem set_randomness_validates (p : PredictionInput) (r : ℚ) :
    (¬ (0 ≤ r ∧ r ≤ 1) →
      (p.set_randomness r).1.isSome ∧ (p.set_randomness r).2 = p) ∧
    ((0 ≤ r ∧ r ≤ 1) →
      (p.set_randomness r).1 = none ∧ (p.set_randomness r).2.randomness = r ∧
      (p.set_randomness r).2 = { p with randomness := r }) := by
  constructor
  · intro h
    unfold PredictionInput.set_randomness
    rw [if_pos h]
    exact ⟨rfl, rfl⟩
  · intro h
    unfold PredictionInput.set_randomness
    rw [if_neg (not_not_intro h)]
    exact ⟨rfl, rfl, rfl⟩

/-- Witness for C8 at `2` (rejected, unchanged) and `1` (stored). -/
theorem set_randomness_validates_witness :
    ((PredictionInput.new [("A", 1)]).set_randomness 2).1.isSome ∧
    ((PredictionInput.new [("A", 1)]).set_randomness 2).2 = PredictionInput.new [("A", 1)] ∧
    ((PredictionInput.new [("A", 1)]).set_randomness 1).1 = none ∧
    ((PredictionInput.new [("A", 1)]).set_randomness 1).2.randomness = 1 :=
  have h1 := (set_randomness_validates (PredictionInput.new [("A", 1)]) 2).1 (by decide)
  have h2 := (set_randomness_validates (PredictionInput.new [("A", 1)]) 1).2 (by decide)
  ⟨h1.1, h1.2, h2.1, h2.2.1⟩

/-- C10: `set_model_intensity` performs no range validation — any rational
intensity (negative included) is accepted for a configured name; only an
unknown name is rejected, leaving the configuration (hence
`models_probability`) unchanged; and a negative intensity whose sum stays
positive yields derived probabilities outside `[0, 1]`, as the concrete
configuration `{A: -1, B: 2}` shows. -/
theorem set_model_intensity_no_range_validation (p : PredictionInput) (model : String)
    (intensity : ℚ) :
    ((∃ e ∈ p.models_intensity, e.1 = model) →
      (p.set_model_intensity model intensity).1 = none) ∧
    ((∀ e ∈ p.models_intensity, e.1 ≠ model) →
      (p.set_model_intensity model intensity).1.isSome ∧
      (p.set_model_intensity model intensity).2 = p) ∧
    ((("A", (-1 : ℚ)) ∈
        (((PredictionInput.new [("A", 1), ("B", 2)]).set_model_intensity "A" (-1)).2).models_probability) ∧
      ¬ ((0 : ℚ) ≤ -1 ∧ (-1 : ℚ) ≤ 1)) := by
  refine ⟨?_, ?_, ?_, by decide⟩
  · intro h
    obtain ⟨e, he, heq⟩ := h
    unfold PredictionInput.set_model_intensity
    rw [if_neg (by
      simp only [not_not, List.any_eq_true, decide_eq_true_eq]
      exact ⟨e, he, heq⟩)]
  · intro h
    unfold PredictionInput.set_model_intensity
    rw [if_pos (by
      simp only [List.any_eq_true, decide_eq_true_eq]
      rintro ⟨e, hmem, heq⟩
      exact h e hmem heq)]
    exact ⟨rfl, rfl⟩
  · show ("A", (-1 : ℚ)) ∈ normalizeProb [("A", -1), ("B", 2)]
    have hnp : normalizeProb [("A", (-1 : ℚ)), ("B", 2)] = [("A", -1), ("B", 2)] := by
      simp only [normalizeProb]
      norm_num
    rw [hnp]
    exact List.mem_cons_self _ _

/-- Witness for C10: a configured name accepts a negative intensity, an
unknown name is rejected without change. -/
theorem set_model_intensity_no_range_validation_witness :
    ((PredictionInput.new [("A", 1)]).set_model_intensity "A" (-5)).1 = none ∧
    ((PredictionInput.new [("A", 1)]).set_model_intensity "C" 1).1.isSome ∧
    ((PredictionInput.new [("A", 1)]).set_model_intensity "C" 1).2 = PredictionInput.new [("A", 1)] :=
  ⟨(set_model_intensity_no_range_validation (PredictionInput.new [("A", 1)]) "A" (-5)).1
      (by decide),
   (set_model_intensity_no_range_validation (PredictionInput.new [("A", 1)]) "C" 1).2.1
      (by decide)⟩

/-! ### `Generator` lemmas -/

/-- C1 counterexample: at prefix length 2, max order 5, randomness 1, with
the override firing and draw 3, `compute_n` returns order 5 although the
computed target order is `base_n 2 5 = min 5 (2+1) = 3` — the overridden
value exceeds the computed `n`, contradicting the claimed interval `[2, n]`. -/
theorem compute_n_override_exceeds_n :
    Generator.compute_n 2 5 1 true 3 = Except.ok 5 ∧
    Generator.base_n 2 5 = 3 ∧ ¬ (5 ≤ 3) := by
  refine ⟨?_, rfl, by decide⟩
  rfl

/-- C1 amended: when the override fires (positive in-range randomness and a
firing draw), the replaced order is uniform over `[2, max (max_n) 2]` — never
below 2, bounded by the max-order argument (so `2` alone when `max_n = 0`,
i.e. `max_order < 2`), and possibly above the computed base order; every
value of that interval is reached by some draw. -/
theorem compute_n_override_range (ps mx : Nat) (rq : ℚ) (fires : Bool) (draw : Nat)
    (h0 : 0 < rq) (h1 : rq ≤ 1) (hf : fires = true) :
    ∃ v, Generator.compute_n ps mx rq fires draw = .ok v ∧ 2 ≤ v ∧ v ≤ Nat.max mx 2 ∧
      ∀ w, 2 ≤ w → w ≤ Nat.max mx 2 →
        ∃ d, Generator.compute_n ps mx rq fires d = .ok w := by
  have hcond : ¬ (rq < 0 ∨ 1 < rq) := by
    push_neg
    exact ⟨le_of_lt h0, h1⟩
  have h2m : 2 ≤ Nat.max mx 2 := Nat.le_max_right mx 2
  have hmx : 1 ≤ Nat.max mx 2 - 1 := Nat.le_sub_one_of_lt (by omega)
  refine ⟨2 + draw % (Nat.max mx 2 - 1), ?_, by omega, ?_, ?_⟩
  · unfold Generator.compute_n Generator.compute_randomness
    rw [if_neg hcond, if_pos ⟨h0, hf⟩]
  · have hlt : draw % (Nat.max mx 2 - 1) < Nat.max mx 2 - 1 :=
      Nat.mod_lt _ (by omega)
    omega
  · intro w hw2 hwm
    refine ⟨w - 2, ?_⟩
    unfold Generator.compute_n Generator.compute_randomness
    rw [if_neg hcond, if_pos ⟨h0, hf⟩]
    have heq : (w - 2) % (Nat.max mx 2 - 1) = w - 2 := Nat.mod_eq_of_lt (by omega)
    rw [heq]
    congr 1
    omega

/-- Witness for the amended C1 statement. -/
theorem compute_n_override_range_witness :
    ∃ v, Generator.compute_n 2 5 1 true 0 = .ok v ∧ 2 ≤ v ∧ v ≤ Nat.max 5 2 ∧
      ∀ w, 2 ≤ w → w ≤ Nat.max 5 2 →
        ∃ d, Generator.compute_n 2 5 1 true d = .ok w :=
  compute_n_override_range 2 5 1 true 0 (by decide) (by decide) rfl

/-- C2 (the code can panic — code bug): with no loaded models the selection
returns an explicit error, as claimed; but with a loaded model set and a
prediction input whose only configured name (probability 1) is not among the
loaded models, the weighted ordering is empty and
`internal_predict_select` reaches the Rust `models[0]` index-out-of-bounds
panic instead of an `Err`. -/
theorem generator_predict_panics_on_unloaded_name :
    (∀ (p : PredictionInput) (score : Nat → ℚ),
      Generator.internal_predict_select ⟨[]⟩ p score
        = .err "No models available for prediction") ∧
    Generator.get_random_models ⟨[("X", MultiGramModel.default)]⟩
        (PredictionInput.new [("Y", 1)]) (fun _ => 0) = [] ∧
    Generator.internal_predict_select ⟨[("X", MultiGramModel.default)]⟩
        (PredictionInput.new [("Y", 1)]) (fun _ => 0) = .aborted := by
  have hprob : (PredictionInput.new [("Y", 1)]).models_probability = [("Y", 1)] := by
    show normalizeProb [("Y", 1)] = [("Y", 1)]
    simp only [normalizeProb]
    norm_num
  have hempty : Generator.get_random_models ⟨[("X", MultiGramModel.default)]⟩
      (PredictionInput.new [("Y", 1)]) (fun _ => 0) = [] := by
    unfold Generator.get_random_models
    rw [hprob]
    rfl
  refine ⟨fun p score => rfl, hempty, ?_⟩
  unfold Generator.internal_predict_select
  rw [hempty]
  rfl

/-! ### retry-wrapper lemmas (claim C9) -/

theorem retryLoop_zero (isDup : String → Bool) (attempts : Nat → String)
    (word : String) (idx : Nat) :
    retryLoop isDup attempts 0 word idx = word := rfl

/-- The retry loop stops at the first non-duplicate attempt within budget. -/
theorem retryLoop_stops (isDup : String → Bool) (attempts : Nat → String) :
    ∀ (b j k : Nat), j ≤ k → k - j ≤ b →
      (∀ i, j ≤ i → i < k → isDup (attempts i) = true) →
      isDup (attempts k) = false →
      retryLoop isDup attempts b (attempts j) (j + 1) = attempts k := by
  intro b
  induction b with
  | zero =>
    intro j k hjk hkb _ _
    have hjk' : j = k := by omega
    subst hjk'
    rfl
  | succ n ih =>
    intro j k hjk hkb hdup hk
    by_cases hjk' : j = k
    · subst hjk'
      simp [retryLoop, hk]
    · have hj : isDup (attempts j) = true := hdup j le_rfl (by omega)
      simp only [retryLoop, hj, if_true]
      exact ih (j + 1) k (by omega) (by omega)
        (fun i h1 h2 => hdup i (by omega) h2) hk

/-- With every in-budget attempt a duplicate, the retry loop exhausts the
budget and returns the last (unchecked) attempt. -/
theorem retryLoop_exhausts (isDup : String → Bool) (attempts : Nat → String) :
    ∀ (b j : Nat), (∀ i, j ≤ i → i < j + b → isDup (attempts i) = true) →
      retryLoop isDup attempts b (attempts j) (j + 1) = attempts (j + b) := by
  intro b
  induction b with
  | zero => intro j _; rfl
  | succ n ih =>
    intro j hdup
    have hj : isDup (attempts j) = true := hdup j le_rfl (by omega)
    simp only [retryLoop, hj, if_true]
    rw [ih (j + 1) (fun i h1 h2 => hdup i (by omega) (by omega))]
    exact congrArg attempts (by omega)

/-- C9: the duplicate-avoidance retry wrapper of both
`MultiGramModel::predict` and `Generator::predict`: budget 0 returns the
first attempt without any duplicate check (the result is independent of the
duplicate predicate); with budget `b > 0` the wrapper regenerates on each
duplicate, stopping at the first non-duplicate attempt or on budget
exhaustion, returning the last attempt either way. -/
theorem predict_retry_semantics (m : MultiGramModel) (g : Generator)
    (attempts : Nat → String) (b k : Nat) :
    (m.predict attempts 0 = attempts 0) ∧
    (Generator.predict g attempts 0 = attempts 0) ∧
    (k ≤ b → (∀ i, i < k → m.isDuplicate (attempts i) = true) →
      m.isDuplicate (attempts k) = false → m.predict attempts b = attempts k) ∧
    ((∀ i, i < b → m.isDuplicate (attempts i) = true) → m.predict attempts b = attempts b) ∧
    (k ≤ b → (∀ i, i < k → Generator.isDuplicate g (attempts i) = true) →
      Generator.isDuplicate g (attempts k) = false →
      Generator.predict g attempts b = attempts k) ∧
    ((∀ i, i < b → Generator.isDuplicate g (attempts i) = true) →
      Generator.predict g attempts b = attempts b) := by
  refine ⟨rfl, rfl, ?_, ?_, ?_, ?_⟩
  · intro hkb hdup hk
    exact retryLoop_stops m.isDuplicate attempts b 0 k (Nat.zero_le _) (by omega)
      (fun i _ h2 => hdup i h2) hk
  · intro hdup
    have h := retryLoop_exhausts m.isDuplicate attempts b 0 (fun i _ h2 => hdup i (by omega))
    simp only [Nat.zero_add] at h
    exact h
  · intro hkb hdup hk
    exact retryLoop_stops (Generator.isDuplicate g) attempts b 0 k (Nat.zero_le _) (by omega)
      (fun i _ h2 => hdup i h2) hk
  · intro hdup
    have h := retryLoop_exhausts (Generator.isDuplicate g) attempts b 0
      (fun i _ h2 => hdup i (by omega))
    simp only [Nat.zero_add] at h
    exact h

/-- Witness for C9 at a concrete empty model/generator and constant attempt
stream. -/
theorem predict_retry_semantics_witness :
    MultiGramModel.default.predict (fun _ => "zz") 0 = "zz" ∧
    Generator.predict ⟨[]⟩ (fun _ => "zz") 0 = "zz" ∧
    MultiGramModel.default.predict (fun _ => "zz") 1 = "zz" ∧
    Generator.predict ⟨[]⟩ (fun _ => "zz") 1 = "zz" :=
  have h := predict_retry_semantics MultiGramModel.default ⟨[]⟩ (fun _ => "zz") 1 0
  ⟨(predict_retry_semantics MultiGramModel.default ⟨[]⟩ (fun _ => "zz") 0 0).1,
   (predict_retry_semantics MultiGramModel.default ⟨[]⟩ (fun _ => "zz") 0 0).2.1,
   h.2.2.1 (by omega) (fun i hi => absurd hi (Nat.not_lt_zero i)) (by decide),
   h.2.2.2.2.1 (by omega) (fun i hi => absurd hi (Nat.not_lt_zero i)) (by decide)⟩

end RsGen
